import Mathlib

/-!
# Verification of the piece-table text buffer

A shallow embedding of the `text-buffer` Rust crate (files `buffer.rs`,
`piece.rs`, `red_black_tree.rs`, `text_buffer.rs`, `types.rs`) together with
proofs about the claims of its specification.

Modelling conventions:
* Rust `&str` / `String` values are modelled as `List Char`; `str::len()`
  (a byte count) is modelled by `utf8Len` (the sum of `Char.utf8Size`).
* `usize` values are modelled as `Nat`.  The single place where an
  arithmetic underflow can occur (`Piece::split_at`) wraps modulo `2 ^ 64`,
  matching release-mode Rust semantics; this is made explicit there.
* Byte slicing of a string (`&s[a..b]`), which panics when `a` or `b` is not
  a character boundary, is modelled by `byteSlice`, which returns `none`
  exactly when Rust would panic.
* Fallible operations returning `Result<T, String>` are modelled as
  `Except String T`.  Mutating methods (`&mut self`) additionally return the
  post-state, so `insert` and `delete` return a pair of result and buffer.
-/

set_option maxRecDepth 4000

/-- Byte length of a text, modelling Rust `str::len()` on UTF-8 data. -/
def utf8Len (s : List Char) : Nat :=
  s.foldr (fun c n => c.utf8Size + n) 0

/-- Models `utils::count_line_breaks`: the number of line-feed characters. -/
def count_line_breaks (s : List Char) : Nat :=
  (s.filter (fun c => c == '\n')).length

/-- Drop exactly `n` bytes from the front of a text; `none` when `n` is not a
character boundary (where Rust byte-slicing would panic). -/
def byteDrop (s : List Char) (n : Nat) : Option (List Char) :=
  if n = 0 then some s
  else
    match s with
    | [] => none
    | c :: rest => if c.utf8Size ≤ n then byteDrop rest (n - c.utf8Size) else none

/-- Take exactly `n` bytes from the front of a text; `none` when `n` is not a
character boundary (where Rust byte-slicing would panic). -/
def byteTake (s : List Char) (n : Nat) : Option (List Char) :=
  if n = 0 then some []
  else
    match s with
    | [] => none
    | c :: rest =>
      if c.utf8Size ≤ n then (byteTake rest (n - c.utf8Size)).map (fun t => c :: t)
      else none

/-- Models the Rust byte slice `&s[a..b]`; `none` models the boundary panic. -/
def byteSlice (s : List Char) (a b : Nat) : Option (List Char) :=
  (byteDrop s a).bind (fun t => byteTake t (b - a))

/-- `types.rs`: a line/column position (both 0-indexed; column counts
Unicode scalar values). -/
structure Position where
  line : Nat
  column : Nat
deriving DecidableEq, Repr

/-- `types.rs`: a half-open range between two positions.  The Rust field
`end` is called `stop` here because `end` is a Lean keyword. -/
structure Range where
  start : Position
  stop : Position
deriving DecidableEq, Repr

/-- `buffer.rs`: a raw store of text plus cached line-start byte offsets. -/
structure Buffer where
  content : List Char
  line_starts : List Nat
deriving DecidableEq, Repr

/-- The loop shared by `Buffer::append` and `Buffer::compute_line_starts`:
byte offsets just past each line feed of `s`, starting from offset `off`. -/
def lineStartsAux (s : List Char) (off : Nat) : List Nat :=
  match s with
  | [] => []
  | c :: rest =>
    if c == '\n' then (off + c.utf8Size) :: lineStartsAux rest (off + c.utf8Size)
    else lineStartsAux rest (off + c.utf8Size)

/-- `Buffer::new`. -/
def Buffer.new : Buffer :=
  { content := [], line_starts := [0] }

/-- `Buffer::from_text` (with `compute_line_starts` inlined). -/
def Buffer.from_text (text : List Char) : Buffer :=
  { content := text, line_starts := 0 :: lineStartsAux text 0 }

/-- `Buffer::len` (a byte count). -/
def Buffer.len (b : Buffer) : Nat :=
  utf8Len b.content

/-- `Buffer::append`. -/
def Buffer.append (b : Buffer) (text : List Char) : Buffer :=
  { content := b.content ++ text,
    line_starts := b.line_starts ++ lineStartsAux text (utf8Len b.content) }

/-- `piece.rs`: which buffer family a piece references. -/
inductive PieceType where
  | original
  | added
deriving DecidableEq, Repr

/-- `piece.rs`: descriptor of a contiguous byte range of one store. -/
structure Piece where
  piece_type : PieceType
  buffer_index : Nat
  start : Nat
  length : Nat
  line_break_count : Nat
deriving DecidableEq, Repr

/-- `Piece::original`. -/
def Piece.original (buffer_index start length line_break_count : Nat) : Piece :=
  ⟨PieceType.original, buffer_index, start, length, line_break_count⟩

/-- `Piece::added`. -/
def Piece.added (buffer_index start length line_break_count : Nat) : Piece :=
  ⟨PieceType.added, buffer_index, start, length, line_break_count⟩

/-- The `usize` modulus. -/
def usizeMod : Nat := 2 ^ 64

/-- `Piece::split_at`.  The `assert!(offset <= self.length)` is modelled by
returning `none` (the assertion panics in Rust).  The right piece's count
`self.line_break_count - left_line_breaks` is a `usize` subtraction, which
wraps modulo `2 ^ 64` in release builds; the wrap is written out explicitly
(both operands are `usize` values, hence `< 2 ^ 64`). -/
def Piece.split_at (p : Piece) (offset left_line_breaks : Nat) :
    Option (Piece × Piece) :=
  if offset ≤ p.length then
    some (⟨p.piece_type, p.buffer_index, p.start, offset, left_line_breaks⟩,
          ⟨p.piece_type, p.buffer_index, p.start + offset, p.length - offset,
           (p.line_break_count + usizeMod - left_line_breaks) % usizeMod⟩)
  else none

/-- `utils::get_piece_content`: resolve a piece against its store.  `none`
covers both the out-of-range check of the source and the byte-slice panic. -/
def utils_get_piece_content (piece : Piece) (original_buffers added_buffers : List Buffer) :
    Option (List Char) :=
  let buffers := match piece.piece_type with
    | PieceType.original => original_buffers
    | PieceType.added => added_buffers
  match buffers.get? piece.buffer_index with
  | none => none
  | some buffer =>
    if piece.start + piece.length ≤ buffer.len then
      byteSlice buffer.content piece.start (piece.start + piece.length)
    else none

/-- `red_black_tree.rs`: node colors. -/
inductive Color where
  | red
  | black
deriving DecidableEq, Repr

/-- `red_black_tree.rs`: `Option<Box<RBNode>>` flattened into one inductive;
`leaf` is Rust's `None`. -/
inductive RBNode where
  | leaf
  | node (piece : Piece) (color : Color) (left_subtree_length : Nat)
      (left_subtree_line_breaks : Nat) (left : RBNode) (right : RBNode)
deriving DecidableEq, Repr

/-- The left child (`leaf` for `leaf`). -/
def RBNode.left : RBNode → RBNode
  | RBNode.leaf => RBNode.leaf
  | RBNode.node _ _ _ _ l _ => l

/-- The right child (`leaf` for `leaf`). -/
def RBNode.right : RBNode → RBNode
  | RBNode.leaf => RBNode.leaf
  | RBNode.node _ _ _ _ _ r => r

/-- `RBTree::is_red` on an optional node (a `leaf` is not red). -/
def RBNode.is_red : RBNode → Bool
  | RBNode.node _ Color.red _ _ _ _ => true
  | _ => false

/-- `node.left_subtree_length + node.piece.length + node.right_subtree_length()`
for a present node and `0` for an absent one: this single recursion is what
`RBNode::right_subtree_length` computes on each right child, and what
`RBNode::total_length` computes at a node. -/
def RBNode.total_length : RBNode → Nat
  | RBNode.leaf => 0
  | RBNode.node p _ ll _ _ r => ll + p.length + r.total_length

/-- The line-break analogue of `RBNode.total_length`, matching
`RBNode::right_subtree_line_breaks` / `RBNode::total_line_breaks`. -/
def RBNode.total_line_breaks : RBNode → Nat
  | RBNode.leaf => 0
  | RBNode.node p _ _ lb _ r => lb + p.line_break_count + r.total_line_breaks

/-- `RBNode::update_metadata`: recompute the cached left-subtree aggregates
from the (possibly changed) left child. -/
def RBNode.update_metadata : RBNode → RBNode
  | RBNode.leaf => RBNode.leaf
  | RBNode.node p c _ _ l r =>
      RBNode.node p c l.total_length l.total_line_breaks l r

/-- `RBTree::rotate_left`.  The source `unwrap`s the right child; callers
guard with `is_red(right)`, so the fallback (identity) is unreachable. -/
def RBNode.rotate_left : RBNode → RBNode
  | RBNode.node p c ll lb l (RBNode.node rp rc rll rlb rl rr) =>
      RBNode.update_metadata (RBNode.node rp c rll rlb
        (RBNode.update_metadata (RBNode.node p Color.red ll lb l rl)) rr)
  | n => n

/-- `RBTree::rotate_right`, mirror image of `rotate_left`. -/
def RBNode.rotate_right : RBNode → RBNode
  | RBNode.node p c ll lb (RBNode.node lp lc lll llb lls lrs) r =>
      RBNode.update_metadata (RBNode.node lp c lll llb lls
        (RBNode.update_metadata (RBNode.node p Color.red ll lb lrs r)))
  | n => n

/-- Paint a node black (no-op on `leaf`). -/
def RBNode.set_black : RBNode → RBNode
  | RBNode.leaf => RBNode.leaf
  | RBNode.node p _ ll lb l r => RBNode.node p Color.black ll lb l r

/-- `RBTree::flip_colors`: node becomes red, both children black. -/
def RBNode.flip_colors : RBNode → RBNode
  | RBNode.leaf => RBNode.leaf
  | RBNode.node p _ ll lb l r =>
      RBNode.node p Color.red ll lb l.set_black r.set_black

/-- `RBTree::insert_recursive`, first balancing step:
`if is_red(right) && !is_red(left) { rotate_left }`. -/
def RBNode.balance_step1 (n : RBNode) : RBNode :=
  if n.right.is_red && !n.left.is_red then n.rotate_left else n

/-- `RBTree::insert_recursive`, second balancing step:
`if is_red(left) && is_red(left.left) { rotate_right }`. -/
def RBNode.balance_step2 (n : RBNode) : RBNode :=
  if n.left.is_red && n.left.left.is_red then n.rotate_right else n

/-- `RBTree::insert_recursive`, third balancing step:
`if is_red(left) && is_red(right) { flip_colors }`. -/
def RBNode.balance_step3 (n : RBNode) : RBNode :=
  if n.left.is_red && n.right.is_red then n.flip_colors else n

/-- `RBTree::insert_recursive`: always descend right, balance, then
`update_metadata`. -/
def RBNode.insert_recursive : RBNode → Piece → RBNode
  | RBNode.leaf, piece =>
      RBNode.node piece Color.red 0 0 RBNode.leaf RBNode.leaf
  | RBNode.node p c ll lb l r, piece =>
      RBNode.update_metadata
        (RBNode.balance_step3 (RBNode.balance_step2 (RBNode.balance_step1
          (RBNode.node p c ll lb l (RBNode.insert_recursive r piece)))))

/-- `red_black_tree.rs`: the tree root plus its node count. -/
structure RBTree where
  root : RBNode
  size : Nat
deriving DecidableEq, Repr

/-- `RBTree::new`. -/
def RBTree.new : RBTree :=
  { root := RBNode.leaf, size := 0 }

/-- `RBTree::is_empty`. -/
def RBTree.is_empty (t : RBTree) : Bool :=
  match t.root with
  | RBNode.leaf => true
  | _ => false

/-- `RBTree::insert`: recursive insertion, root forced black, size bump. -/
def RBTree.insert (t : RBTree) (piece : Piece) : RBTree :=
  { root := (t.root.insert_recursive piece).set_black, size := t.size + 1 }

/-- `RBTree::total_length` (`root.map(total_length).unwrap_or(0)`). -/
def RBTree.total_length (t : RBTree) : Nat :=
  t.root.total_length

/-- `RBTree::total_line_breaks`. -/
def RBTree.total_line_breaks (t : RBTree) : Nat :=
  t.root.total_line_breaks

/-- `RBTree::collect_pieces` on a node: in-order traversal. -/
def RBNode.collect_pieces : RBNode → List Piece
  | RBNode.leaf => []
  | RBNode.node p _ _ _ l r => l.collect_pieces ++ p :: r.collect_pieces

/-- `RBTree::collect_pieces`. -/
def RBTree.collect_pieces (t : RBTree) : List Piece :=
  t.root.collect_pieces

/-- `RBTree::find_piece_at_offset_recursive`. -/
def RBNode.find_piece_at_offset : RBNode → Nat → Option Piece
  | RBNode.leaf, _ => none
  | RBNode.node p _ ll _ l r, offset =>
    if offset < ll then l.find_piece_at_offset offset
    else if offset < ll + p.length then some p
    else r.find_piece_at_offset (offset - ll - p.length)

/-- `RBTree::find_piece_at_offset`. -/
def RBTree.find_piece_at_offset (t : RBTree) (offset : Nat) : Option Piece :=
  t.root.find_piece_at_offset offset

/-- `text_buffer.rs`: the façade. -/
structure TextBuffer where
  original_buffers : List Buffer
  added_buffers : List Buffer
  tree : RBTree
deriving DecidableEq, Repr

/-- `TextBuffer::get_piece_content`. -/
def TextBuffer.get_piece_content (tb : TextBuffer) (piece : Piece) :
    Option (List Char) :=
  utils_get_piece_content piece tb.original_buffers tb.added_buffers

/-- `TextBuffer::new`. -/
def TextBuffer.new : TextBuffer :=
  { original_buffers := [Buffer.new], added_buffers := [Buffer.new],
    tree := RBTree.new }

/-- `TextBuffer::line_count`. -/
def TextBuffer.line_count (tb : TextBuffer) : Nat :=
  if tb.tree.is_empty then 1 else tb.tree.total_line_breaks + 1

/-- `TextBuffer::length`. -/
def TextBuffer.length (tb : TextBuffer) : Nat :=
  tb.tree.total_length

/-- The loop of `TextBuffer::get_all_text`: concatenate the resolved content
of the pieces in order; a piece that fails to resolve contributes nothing
(the `if let Some` of the source). -/
def piecesText (tb : TextBuffer) : List Piece → List Char
  | [] => []
  | p :: ps => (tb.get_piece_content p).getD [] ++ piecesText tb ps

/-- `TextBuffer::get_all_text`. -/
def TextBuffer.get_all_text (tb : TextBuffer) : List Char :=
  piecesText tb tb.tree.collect_pieces

/-- Result of the inner character loop of `TextBuffer::position_to_offset`:
either an early `return` with a result, or fall through to the next piece
with updated `current_line` / `current_column` / `byte_offset`. -/
inductive PtoStep where
  | ret (r : Except String Nat)
  | cont (line column offset : Nat)
deriving Repr

/-- Inner character loop of `TextBuffer::position_to_offset`. -/
def posToOffChars (pos : Position) : List Char → Nat → Nat → Nat → PtoStep
  | [], l, c, off => PtoStep.cont l c off
  | ch :: rest, l, c, off =>
    if l = pos.line then
      if c = pos.column then PtoStep.ret (Except.ok off)
      else if ch = '\n' then PtoStep.ret (Except.ok off)
      else posToOffChars pos rest l (c + 1) (off + ch.utf8Size)
    else if ch = '\n' then
      if l + 1 > pos.line then PtoStep.ret (Except.error "Position out of bounds")
      else posToOffChars pos rest (l + 1) 0 (off + ch.utf8Size)
    else posToOffChars pos rest l c (off + ch.utf8Size)

/-- Outer piece loop of `TextBuffer::position_to_offset`, including the
end-of-buffer check after the loop. -/
def posToOffPieces (tb : TextBuffer) (pos : Position) :
    List Piece → Nat → Nat → Nat → Except String Nat
  | [], l, c, off =>
    if l = pos.line ∧ c = pos.column then Except.ok off
    else Except.error "Position out of bounds"
  | p :: ps, l, c, off =>
    match tb.get_piece_content p with
    | none => Except.error "Failed to get piece content"
    | some content =>
      match posToOffChars pos content l c off with
      | PtoStep.ret r => r
      | PtoStep.cont l' c' off' => posToOffPieces tb pos ps l' c' off'

/-- `TextBuffer::position_to_offset`. -/
def TextBuffer.position_to_offset (tb : TextBuffer) (pos : Position) :
    Except String Nat :=
  posToOffPieces tb pos tb.tree.collect_pieces 0 0 0

/-- Result of the inner character loop of `TextBuffer::offset_to_position`:
an early `return Ok(position)` or fall-through state. -/
inductive OtpStep where
  | found (pos : Position)
  | cont (line column offset : Nat)
deriving DecidableEq, Repr

/-- Inner character loop of `TextBuffer::offset_to_position`. -/
def offToPosChars (target : Nat) : List Char → Nat → Nat → Nat → OtpStep
  | [], l, c, off => OtpStep.cont l c off
  | ch :: rest, l, c, off =>
    if off = target then OtpStep.found ⟨l, c⟩
    else if ch = '\n' then offToPosChars target rest (l + 1) 0 (off + ch.utf8Size)
    else offToPosChars target rest l (c + 1) (off + ch.utf8Size)

/-- Outer piece loop of `TextBuffer::offset_to_position`, including the
end-of-buffer check after the loop. -/
def offToPosPieces (tb : TextBuffer) (target : Nat) :
    List Piece → Nat → Nat → Nat → Except String Position
  | [], l, c, off =>
    if off = target then Except.ok ⟨l, c⟩ else Except.error "Offset out of bounds"
  | p :: ps, l, c, off =>
    match tb.get_piece_content p with
    | none => Except.error "Failed to get piece content"
    | some content =>
      match offToPosChars target content l c off with
      | OtpStep.found pos => Except.ok pos
      | OtpStep.cont l' c' off' => offToPosPieces tb target ps l' c' off'

/-- `TextBuffer::offset_to_position`. -/
def TextBuffer.offset_to_position (tb : TextBuffer) (target : Nat) :
    Except String Position :=
  offToPosPieces tb target tb.tree.collect_pieces 0 0 0

/-- Piece loop of `TextBuffer::get_text_in_range` (after the offsets have
been resolved and checked).  The byte-slicing panic is modelled as an
internal error. -/
def gtirPieces (tb : TextBuffer) (start_offset end_offset : Nat) :
    List Piece → Nat → List Char → Except String (List Char)
  | [], _, acc => Except.ok acc
  | p :: ps, current_offset, acc =>
    match tb.get_piece_content p with
    | none => Except.error "Failed to get piece content"
    | some content =>
      let piece_start := current_offset
      let piece_end := current_offset + p.length
      if piece_start ≥ end_offset then Except.ok acc
      else if piece_end > start_offset then
        let content_start := start_offset - piece_start
        let content_end :=
          if end_offset < piece_end then end_offset - piece_start else p.length
        if content_start < utf8Len content ∧ content_end ≤ utf8Len content then
          match byteSlice content content_start content_end with
          | none => Except.error "string slice panic"
          | some seg => gtirPieces tb start_offset end_offset ps piece_end (acc ++ seg)
        else gtirPieces tb start_offset end_offset ps piece_end acc
      else gtirPieces tb start_offset end_offset ps piece_end acc

/-- `TextBuffer::get_text_in_range`. -/
def TextBuffer.get_text_in_range (tb : TextBuffer) (range : Range) :
    Except String (List Char) :=
  match tb.position_to_offset range.start with
  | Except.error e => Except.error e
  | Except.ok start_offset =>
    match tb.position_to_offset range.stop with
    | Except.error e => Except.error e
    | Except.ok end_offset =>
      if start_offset ≥ end_offset then Except.error "Invalid range"
      else gtirPieces tb start_offset end_offset tb.tree.collect_pieces 0 []

/-- `TextBuffer::delete`: resolves the offsets, validates the range, captures
the covered text — and (the acknowledged stub) never touches the tree, so the
post-state is the input buffer. -/
def TextBuffer.delete (tb : TextBuffer) (range : Range) :
    Except String (List Char) × TextBuffer :=
  match tb.position_to_offset range.start with
  | Except.error e => (Except.error e, tb)
  | Except.ok start_offset =>
    match tb.position_to_offset range.stop with
    | Except.error e => (Except.error e, tb)
    | Except.ok end_offset =>
      if start_offset ≥ end_offset then (Except.error "Invalid range", tb)
      else
        match tb.get_text_in_range range with
        | Except.error e => (Except.error e, tb)
        | Except.ok deleted_text => (Except.ok deleted_text, tb)

/-- `TextBuffer::insert`: validate the position, append to the last added
store, build the new piece and insert it into the tree (the source inserts
the same way in both arms of its `find_piece_at_offset` match — the
acknowledged stub).  The `last_mut().unwrap()` cannot fail on reachable
buffers (there is always one added buffer); an absent added buffer is
modelled as an error. -/
def TextBuffer.insert (tb : TextBuffer) (position : Position) (text : List Char) :
    Except String Unit × TextBuffer :=
  if text = [] then (Except.ok (), tb)
  else
    match tb.position_to_offset position with
    | Except.error e => (Except.error e, tb)
    | Except.ok offset =>
      match tb.added_buffers.getLast? with
      | none => (Except.error "no added buffer", tb)
      | some added_buffer =>
        let start_offset := added_buffer.len
        let added_buffer' := added_buffer.append text
        let line_breaks := count_line_breaks text
        let new_piece := Piece.added (tb.added_buffers.length - 1) start_offset
          (utf8Len text) line_breaks
        let tree' :=
          match tb.tree.find_piece_at_offset offset with
          | some _ => tb.tree.insert new_piece
          | none => tb.tree.insert new_piece
        (Except.ok (),
         { tb with added_buffers := tb.added_buffers.dropLast ++ [added_buffer'],
                   tree := tree' })

/-- Inner character loop of `TextBuffer::get_line_content`: consume a piece,
returning the updated `current_line` and accumulated content.  An inner
`break` just stops consuming this piece. -/
def glcChars (line : Nat) : List Char → Nat → List Char → Nat × List Char
  | [], cl, acc => (cl, acc)
  | ch :: rest, cl, acc =>
    if cl = line then
      if ch = '\n' then (cl, acc)
      else glcChars line rest cl (acc ++ [ch])
    else if ch = '\n' then
      if cl + 1 > line then (cl + 1, acc)
      else glcChars line rest (cl + 1) acc
    else glcChars line rest cl acc

/-- Outer piece loop of `TextBuffer::get_line_content`. -/
def glcPieces (tb : TextBuffer) (line : Nat) :
    List Piece → Nat → List Char → Except String (List Char)
  | [], _, acc => Except.ok acc
  | p :: ps, cl, acc =>
    match tb.get_piece_content p with
    | none => Except.error "Failed to get piece content"
    | some content =>
      let r := glcChars line content cl acc
      if r.1 > line then Except.ok r.2
      else glcPieces tb line ps r.1 r.2

/-- `TextBuffer::get_line_content`. -/
def TextBuffer.get_line_content (tb : TextBuffer) (line : Nat) :
    Except String (List Char) :=
  if line ≥ tb.line_count then Except.error "Line out of bounds"
  else glcPieces tb line tb.tree.collect_pieces 0 []

/-- `text_buffer.rs`: the builder. -/
structure TextBufferBuilder where
  original_buffers : List Buffer
  added_buffers : List Buffer
  pieces : List Piece
deriving DecidableEq, Repr

/-- `TextBufferBuilder::new`. -/
def TextBufferBuilder.new : TextBufferBuilder :=
  { original_buffers := [], added_buffers := [Buffer.new], pieces := [] }

/-- `TextBufferBuilder::accept_chunk`. -/
def TextBufferBuilder.accept_chunk (b : TextBufferBuilder) (text : List Char) :
    TextBufferBuilder :=
  if text = [] then b
  else
    match b.original_buffers.getLast? with
    | some last_buffer =>
      let start_offset := last_buffer.len
      let last_buffer' := last_buffer.append text
      let piece := Piece.original (b.original_buffers.length - 1) start_offset
        (utf8Len text) (count_line_breaks text)
      { b with original_buffers := b.original_buffers.dropLast ++ [last_buffer'],
               pieces := b.pieces ++ [piece] }
    | none =>
      let buffer := Buffer.from_text text
      let piece := Piece.original 0 0 (utf8Len text) (count_line_breaks text)
      { b with original_buffers := b.original_buffers ++ [buffer],
               pieces := b.pieces ++ [piece] }

/-- `TextBufferBuilder::build`. -/
def TextBufferBuilder.build (b : TextBufferBuilder) : TextBuffer :=
  let tree := b.pieces.foldl (fun t p => t.insert p) RBTree.new
  if tree.is_empty then
    let tree2 := tree.insert (Piece.original 0 0 0 0)
    if b.original_buffers = [] then
      { original_buffers := [Buffer.new], added_buffers := b.added_buffers,
        tree := tree2 }
    else
      { original_buffers := b.original_buffers, added_buffers := b.added_buffers,
        tree := tree2 }
  else
    { original_buffers := b.original_buffers, added_buffers := b.added_buffers,
      tree := tree }

/-- `TextBuffer::from_text`. -/
def TextBuffer.from_text (text : List Char) : TextBuffer :=
  (TextBufferBuilder.new.accept_chunk text).build

/-- Sum of the piece lengths stored in a subtree (the value the cached
`left_subtree_length` aggregates are specified to equal). -/
def RBNode.sum_length : RBNode → Nat
  | RBNode.leaf => 0
  | RBNode.node p _ _ _ l r => l.sum_length + p.length + r.sum_length

/-- Sum of the piece line-break counts stored in a subtree. -/
def RBNode.sum_line_breaks : RBNode → Nat
  | RBNode.leaf => 0
  | RBNode.node p _ _ _ l r => l.sum_line_breaks + p.line_break_count + r.sum_line_breaks

/-- The augmentation invariant: at every node the cached left-subtree byte
length and line-break count equal the corresponding sums over the left
subtree. -/
def RBNode.wf_metadata : RBNode → Bool
  | RBNode.leaf => true
  | RBNode.node _ _ ll lb l r =>
      (ll == l.sum_length) && (lb == l.sum_line_breaks) && l.wf_metadata && r.wf_metadata

/-- Well-formedness of a text buffer: the tree metadata invariant holds and
every piece of the tree resolves to content whose line-break count matches
the piece's cached count. -/
def TextBuffer.wf (tb : TextBuffer) : Bool :=
  tb.tree.root.wf_metadata &&
    tb.tree.collect_pieces.all (fun p =>
      match tb.get_piece_content p with
      | some content => count_line_breaks content == p.line_break_count
      | none => false)

/-- The characters of line `l` of a text (up to the terminating line feed or
the end of the text). -/
def lineChars : List Char → Nat → List Char
  | [], _ => []
  | c :: rest, 0 => if c = '\n' then [] else c :: lineChars rest 0
  | c :: rest, l + 1 => if c = '\n' then lineChars rest l else lineChars rest (l + 1)

/-- The byte offset of the line feed terminating line `l` of a text, or
`none` when line `l` is not terminated by a line feed. -/
def lineEndOff : List Char → Nat → Option Nat
  | [], _ => none
  | c :: rest, 0 =>
    if c = '\n' then some 0 else (lineEndOff rest 0).map (fun d => c.utf8Size + d)
  | c :: rest, l + 1 =>
    (if c = '\n' then lineEndOff rest l else lineEndOff rest (l + 1)).map
      (fun d => c.utf8Size + d)

/-- All character-boundary byte offsets of a text, starting at offset `off`
(the final entry is the total byte length). -/
def byteOffsets : List Char → Nat → List Nat
  | [], off => [off]
  | c :: rest, off => off :: byteOffsets rest (off + c.utf8Size)

/-- Feed a list of chunks through `accept_chunk` starting from a fresh
builder. -/
def feedChunks (cs : List (List Char)) : TextBufferBuilder :=
  cs.foldl (fun b c => b.accept_chunk c) TextBufferBuilder.new

/-- The chunks that actually contribute: `accept_chunk` ignores empty ones. -/
def chunksNE (cs : List (List Char)) : List (List Char) :=
  cs.filter (fun c => !c.isEmpty)

/-- The pieces `accept_chunk` records for the (non-empty) chunks `cs`, when
the bytes already stored total `off`: consecutive ranges of store 0. -/
def expectedPieces : Nat → List (List Char) → List Piece
  | _, [] => []
  | off, c :: cs =>
      Piece.original 0 off (utf8Len c) (count_line_breaks c) ::
        expectedPieces (off + utf8Len c) cs

/-- `position_to_offset` as a single scan over the whole document text:
the form the piece loop reduces to when every piece resolves. -/
def posToOffFlat (s : List Char) (pos : Position) : Except String Nat :=
  match posToOffChars pos s 0 0 0 with
  | PtoStep.ret r => r
  | PtoStep.cont l c off =>
    if l = pos.line ∧ c = pos.column then Except.ok off
    else Except.error "Position out of bounds"

/-- `posToOffFlat` with an arbitrary starting state, used to reason about
the scan one character at a time. -/
def posToOffFlatFrom (s : List Char) (pos : Position) (l c off : Nat) :
    Except String Nat :=
  match posToOffChars pos s l c off with
  | PtoStep.ret r => r
  | PtoStep.cont l' c' off' =>
    if l' = pos.line ∧ c' = pos.column then Except.ok off'
    else Except.error "Position out of bounds"

/-- `offset_to_position` as a single scan over the whole document text. -/
def offToPosFlat (s : List Char) (target : Nat) : Except String Position :=
  match offToPosChars target s 0 0 0 with
  | OtpStep.found pos => Except.ok pos
  | OtpStep.cont l c off =>
    if off = target then Except.ok ⟨l, c⟩ else Except.error "Offset out of bounds"

theorem utf8Len_nil : utf8Len [] = 0 := rfl

theorem utf8Len_cons (c : Char) (s : List Char) :
    utf8Len (c :: s) = c.utf8Size + utf8Len s := rfl

theorem utf8Len_append (xs ys : List Char) :
    utf8Len (xs ++ ys) = utf8Len xs + utf8Len ys := by
  induction xs with
  | nil => simp [utf8Len]
  | cons c xs ih => simp [utf8Len_cons, ih, Nat.add_assoc]

theorem count_line_breaks_nil : count_line_breaks [] = 0 := rfl

theorem count_line_breaks_append (xs ys : List Char) :
    count_line_breaks (xs ++ ys) = count_line_breaks xs + count_line_breaks ys := by
  simp [count_line_breaks, List.filter_append]

theorem byteDrop_zero (s : List Char) : byteDrop s 0 = some s := by
  rw [byteDrop.eq_def]
  simp

theorem byteDrop_append (xs ys : List Char) :
    byteDrop (xs ++ ys) (utf8Len xs) = some ys := by
  induction xs with
  | nil => simpa [utf8Len] using byteDrop_zero ys
  | cons c xs ih =>
    have hpos : 0 < c.utf8Size := Char.utf8Size_pos c
    rw [List.cons_append, utf8Len_cons, byteDrop]
    rw [if_neg (by omega)]
    rw [if_pos (by omega)]
    simpa [Nat.add_sub_cancel_left] using ih

theorem byteTake_append (xs ys : List Char) :
    byteTake (xs ++ ys) (utf8Len xs) = some xs := by
  induction xs with
  | nil =>
    rw [utf8Len_nil, byteTake.eq_def]
    simp
  | cons c xs ih =>
    have hpos : 0 < c.utf8Size := Char.utf8Size_pos c
    rw [List.cons_append, utf8Len_cons, byteTake]
    rw [if_neg (by omega)]
    rw [if_pos (by omega)]
    simp [Nat.add_sub_cancel_left, ih]

theorem byteSlice_middle (pre mid post : List Char) :
    byteSlice (pre ++ mid ++ post) (utf8Len pre) (utf8Len pre + utf8Len mid) =
      some mid := by
  rw [byteSlice, List.append_assoc, byteDrop_append]
  simp [Nat.add_sub_cancel_left, byteTake_append]

theorem collect_update_metadata (n : RBNode) :
    n.update_metadata.collect_pieces = n.collect_pieces := by
  cases n <;> rfl

theorem collect_set_black (n : RBNode) :
    n.set_black.collect_pieces = n.collect_pieces := by
  cases n <;> rfl

theorem collect_rotate_left (n : RBNode) :
    n.rotate_left.collect_pieces = n.collect_pieces := by
  cases n with
  | leaf => rfl
  | node p c ll lb l r =>
    cases r with
    | leaf => rfl
    | node rp rc rll rlb rl rr =>
      simp [RBNode.rotate_left, RBNode.update_metadata, RBNode.collect_pieces]

theorem collect_rotate_right (n : RBNode) :
    n.rotate_right.collect_pieces = n.collect_pieces := by
  cases n with
  | leaf => rfl
  | node p c ll lb l r =>
    cases l with
    | leaf => rfl
    | node lp lc lll llb lls lrs =>
      simp [RBNode.rotate_right, RBNode.update_metadata, RBNode.collect_pieces]

theorem collect_flip_colors (n : RBNode) :
    n.flip_colors.collect_pieces = n.collect_pieces := by
  cases n with
  | leaf => rfl
  | node p c ll lb l r =>
    simp [RBNode.flip_colors, RBNode.collect_pieces, collect_set_black]

theorem collect_balance_step1 (n : RBNode) :
    n.balance_step1.collect_pieces = n.collect_pieces := by
  rw [RBNode.balance_step1]
  split
  case isTrue => exact collect_rotate_left n
  case isFalse => rfl

theorem collect_balance_step2 (n : RBNode) :
    n.balance_step2.collect_pieces = n.collect_pieces := by
  rw [RBNode.balance_step2]
  split
  case isTrue => exact collect_rotate_right n
  case isFalse => rfl

theorem collect_balance_step3 (n : RBNode) :
    n.balance_step3.collect_pieces = n.collect_pieces := by
  rw [RBNode.balance_step3]
  split
  case isTrue => exact collect_flip_colors n
  case isFalse => rfl

theorem collect_insert_recursive (n : RBNode) (piece : Piece) :
    (n.insert_recursive piece).collect_pieces = n.collect_pieces ++ [piece] := by
  induction n with
  | leaf => rfl
  | node p c ll lb l r ihl ihr =>
    rw [RBNode.insert_recursive, collect_update_metadata, collect_balance_step3,
      collect_balance_step2, collect_balance_step1]
    simp [RBNode.collect_pieces, ihr]

theorem collect_insert (t : RBTree) (piece : Piece) :
    (t.insert piece).collect_pieces = t.collect_pieces ++ [piece] := by
  rw [RBTree.insert, RBTree.collect_pieces, RBTree.collect_pieces]
  simp [collect_set_black, collect_insert_recursive]

theorem collect_insert_foldl (ps : List Piece) (t : RBTree) :
    (ps.foldl (fun t p => t.insert p) t).collect_pieces =
      t.collect_pieces ++ ps := by
  induction ps generalizing t with
  | nil => simp
  | cons p ps ih => simp [List.foldl_cons, ih, collect_insert]

theorem wf_metadata_node_iff (p : Piece) (c : Color) (ll lb : Nat) (l r : RBNode) :
    (RBNode.node p c ll lb l r).wf_metadata = true ↔
      ll = l.sum_length ∧ lb = l.sum_line_breaks ∧
        l.wf_metadata = true ∧ r.wf_metadata = true := by
  simp [RBNode.wf_metadata, Bool.and_assoc, and_assoc, Nat.beq_eq]

theorem total_length_eq_sum (n : RBNode) (h : n.wf_metadata = true) :
    n.total_length = n.sum_length := by
  induction n with
  | leaf => rfl
  | node p c ll lb l r ihl ihr =>
    rcases (wf_metadata_node_iff p c ll lb l r).mp h with ⟨h1, _, _, hr⟩
    rw [RBNode.total_length, RBNode.sum_length, h1, ihr hr]

theorem total_line_breaks_eq_sum (n : RBNode) (h : n.wf_metadata = true) :
    n.total_line_breaks = n.sum_line_breaks := by
  induction n with
  | leaf => rfl
  | node p c ll lb l r ihl ihr =>
    rcases (wf_metadata_node_iff p c ll lb l r).mp h with ⟨_, h2, _, hr⟩
    rw [RBNode.total_line_breaks, RBNode.sum_line_breaks, h2, ihr hr]

theorem wf_update_metadata (p : Piece) (c : Color) (x y : Nat) (l r : RBNode)
    (hl : l.wf_metadata = true) (hr : r.wf_metadata = true) :
    (RBNode.node p c x y l r).update_metadata.wf_metadata = true := by
  rw [RBNode.update_metadata, wf_metadata_node_iff]
  exact ⟨total_length_eq_sum l hl, total_line_breaks_eq_sum l hl, hl, hr⟩

theorem wf_update_metadata_of_wf (n : RBNode) (h : n.wf_metadata = true) :
    n.update_metadata.wf_metadata = true := by
  cases n with
  | leaf => rfl
  | node p c ll lb l r =>
    rcases (wf_metadata_node_iff p c ll lb l r).mp h with ⟨_, _, hl, hr⟩
    exact wf_update_metadata p c ll lb l r hl hr

theorem wf_set_black (n : RBNode) (h : n.wf_metadata = true) :
    n.set_black.wf_metadata = true := by
  cases n with
  | leaf => rfl
  | node p c ll lb l r =>
    rw [RBNode.set_black, wf_metadata_node_iff]
    exact (wf_metadata_node_iff p c ll lb l r).mp h

theorem sum_length_set_black (n : RBNode) : n.set_black.sum_length = n.sum_length := by
  cases n <;> rfl

theorem sum_line_breaks_set_black (n : RBNode) :
    n.set_black.sum_line_breaks = n.sum_line_breaks := by
  cases n <;> rfl

theorem wf_rotate_left (n : RBNode) (h : n.wf_metadata = true) :
    n.rotate_left.wf_metadata = true := by
  cases n with
  | leaf => exact h
  | node p c ll lb l r =>
    cases r with
    | leaf => exact h
    | node rp rc rll rlb rl rr =>
      rcases (wf_metadata_node_iff p c ll lb l _).mp h with ⟨h1, h2, hl, hr⟩
      rcases (wf_metadata_node_iff rp rc rll rlb rl rr).mp hr with ⟨_, _, hrl, hrr⟩
      rw [RBNode.rotate_left]
      exact wf_update_metadata rp c rll rlb _ rr
        (wf_update_metadata p Color.red ll lb l rl hl hrl) hrr

theorem wf_rotate_right (n : RBNode) (h : n.wf_metadata = true) :
    n.rotate_right.wf_metadata = true := by
  cases n with
  | leaf => exact h
  | node p c ll lb l r =>
    cases l with
    | leaf => exact h
    | node lp lc lll llb lls lrs =>
      rcases (wf_metadata_node_iff p c ll lb _ r).mp h with ⟨h1, h2, hl, hr⟩
      rcases (wf_metadata_node_iff lp lc lll llb lls lrs).mp hl with ⟨_, _, hll, hlr⟩
      rw [RBNode.rotate_right]
      exact wf_update_metadata lp c lll llb lls _ hll
        (wf_update_metadata p Color.red ll lb lrs r hlr hr)

theorem wf_flip_colors (n : RBNode) (h : n.wf_metadata = true) :
    n.flip_colors.wf_metadata = true := by
  cases n with
  | leaf => exact h
  | node p c ll lb l r =>
    rcases (wf_metadata_node_iff p c ll lb l r).mp h with ⟨h1, h2, hl, hr⟩
    rw [RBNode.flip_colors, wf_metadata_node_iff, sum_length_set_black,
      sum_line_breaks_set_black]
    exact ⟨h1, h2, wf_set_black l hl, wf_set_black r hr⟩

theorem wf_balance_step1 (n : RBNode) (h : n.wf_metadata = true) :
    n.balance_step1.wf_metadata = true := by
  rw [RBNode.balance_step1]
  split
  case isTrue => exact wf_rotate_left n h
  case isFalse => exact h

theorem wf_balance_step2 (n : RBNode) (h : n.wf_metadata = true) :
    n.balance_step2.wf_metadata = true := by
  rw [RBNode.balance_step2]
  split
  case isTrue => exact wf_rotate_right n h
  case isFalse => exact h

theorem wf_balance_step3 (n : RBNode) (h : n.wf_metadata = true) :
    n.balance_step3.wf_metadata = true := by
  rw [RBNode.balance_step3]
  split
  case isTrue => exact wf_flip_colors n h
  case isFalse => exact h

theorem wf_insert_recursive (n : RBNode) (piece : Piece) (h : n.wf_metadata = true) :
    (n.insert_recursive piece).wf_metadata = true := by
  induction n with
  | leaf => rfl
  | node p c ll lb l r ihl ihr =>
    rcases (wf_metadata_node_iff p c ll lb l r).mp h with ⟨h1, h2, hl, hr⟩
    rw [RBNode.insert_recursive]
    exact wf_update_metadata_of_wf _ (wf_balance_step3 _ (wf_balance_step2 _
      (wf_balance_step1 _ ((wf_metadata_node_iff p c ll lb l _).mpr
        ⟨h1, h2, hl, ihr hr⟩))))

theorem wf_insert (t : RBTree) (piece : Piece) (h : t.root.wf_metadata = true) :
    (t.insert piece).root.wf_metadata = true := by
  rw [RBTree.insert]
  exact wf_set_black _ (wf_insert_recursive t.root piece h)

theorem wf_insert_foldl (ps : List Piece) (t : RBTree)
    (h : t.root.wf_metadata = true) :
    (ps.foldl (fun t p => t.insert p) t).root.wf_metadata = true := by
  induction ps generalizing t with
  | nil => exact h
  | cons p ps ih => exact ih _ (wf_insert t p h)

theorem posToOffChars_append (pos : Position) (xs ys : List Char) (l c off : Nat) :
    posToOffChars pos (xs ++ ys) l c off =
      match posToOffChars pos xs l c off with
      | PtoStep.ret r => PtoStep.ret r
      | PtoStep.cont l' c' off' => posToOffChars pos ys l' c' off' := by
  induction xs generalizing l c off with
  | nil => simp [posToOffChars]
  | cons ch rest ih =>
    rw [List.cons_append, posToOffChars, posToOffChars]
    by_cases h1 : l = pos.line
    · rw [if_pos h1, if_pos h1]
      by_cases h2 : c = pos.column
      · rw [if_pos h2, if_pos h2]
      · rw [if_neg h2, if_neg h2]
        by_cases h3 : ch = '\n'
        · rw [if_pos h3, if_pos h3]
        · rw [if_neg h3, if_neg h3]
          exact ih _ _ _
    · rw [if_neg h1, if_neg h1]
      by_cases h3 : ch = '\n'
      · rw [if_pos h3, if_pos h3]
        by_cases h4 : l + 1 > pos.line
        · rw [if_pos h4, if_pos h4]
        · rw [if_neg h4, if_neg h4]
          exact ih _ _ _
      · rw [if_neg h3, if_neg h3]
        exact ih _ _ _

theorem offToPosChars_append (target : Nat) (xs ys : List Char) (l c off : Nat) :
    offToPosChars target (xs ++ ys) l c off =
      match offToPosChars target xs l c off with
      | OtpStep.found pos => OtpStep.found pos
      | OtpStep.cont l' c' off' => offToPosChars target ys l' c' off' := by
  induction xs generalizing l c off with
  | nil => simp [offToPosChars]
  | cons ch rest ih =>
    rw [List.cons_append, offToPosChars, offToPosChars]
    by_cases h1 : off = target
    · rw [if_pos h1, if_pos h1]
    · rw [if_neg h1, if_neg h1]
      by_cases h3 : ch = '\n'
      · rw [if_pos h3, if_pos h3]
        exact ih _ _ _
      · rw [if_neg h3, if_neg h3]
        exact ih _ _ _

theorem posToOffPieces_eq_flat (tb : TextBuffer) (pos : Position) (ps : List Piece)
    (l c off : Nat) (h : ∀ p ∈ ps, (tb.get_piece_content p).isSome = true) :
    posToOffPieces tb pos ps l c off =
      match posToOffChars pos (piecesText tb ps) l c off with
      | PtoStep.ret r => r
      | PtoStep.cont l' c' off' =>
        if l' = pos.line ∧ c' = pos.column then Except.ok off'
        else Except.error "Position out of bounds" := by
  induction ps generalizing l c off with
  | nil => simp [posToOffPieces, piecesText, posToOffChars]
  | cons p ps ih =>
    have hp : (tb.get_piece_content p).isSome = true := h p (by simp)
    obtain ⟨content, hc⟩ := Option.isSome_iff_exists.mp hp
    rw [posToOffPieces, hc, piecesText, hc]
    simp only [Option.getD_some]
    rw [posToOffChars_append]
    cases hstep : posToOffChars pos content l c off with
    | ret r => rfl
    | cont l' c' off' =>
      exact ih l' c' off' (fun q hq => h q (by simp [hq]))

theorem offToPosPieces_eq_flat (tb : TextBuffer) (target : Nat) (ps : List Piece)
    (l c off : Nat) (h : ∀ p ∈ ps, (tb.get_piece_content p).isSome = true) :
    offToPosPieces tb target ps l c off =
      match offToPosChars target (piecesText tb ps) l c off with
      | OtpStep.found pos => Except.ok pos
      | OtpStep.cont l' c' off' =>
        if off' = target then Except.ok ⟨l', c'⟩
        else Except.error "Offset out of bounds" := by
  induction ps generalizing l c off with
  | nil => simp [offToPosPieces, piecesText, offToPosChars]
  | cons p ps ih =>
    have hp : (tb.get_piece_content p).isSome = true := h p (by simp)
    obtain ⟨content, hc⟩ := Option.isSome_iff_exists.mp hp
    rw [offToPosPieces, hc, piecesText, hc]
    simp only [Option.getD_some]
    rw [offToPosChars_append]
    cases hstep : offToPosChars target content l c off with
    | found pos => rfl
    | cont l' c' off' =>
      exact ih l' c' off' (fun q hq => h q (by simp [hq]))

theorem wf_pieces_resolve (tb : TextBuffer) (h : tb.wf = true) :
    ∀ p ∈ tb.tree.collect_pieces, (tb.get_piece_content p).isSome = true := by
  intro p hp
  rw [TextBuffer.wf, Bool.and_eq_true] at h
  have := (List.all_eq_true.mp h.2) p hp
  cases hc : tb.get_piece_content p with
  | none => rw [hc] at this; exact absurd this (by simp)
  | some content => rfl

theorem position_to_offset_eq_flat (tb : TextBuffer) (pos : Position)
    (h : tb.wf = true) :
    tb.position_to_offset pos = posToOffFlat tb.get_all_text pos := by
  rw [TextBuffer.position_to_offset, TextBuffer.get_all_text, posToOffFlat]
  exact posToOffPieces_eq_flat tb pos _ 0 0 0 (wf_pieces_resolve tb h)

theorem offset_to_position_eq_flat (tb : TextBuffer) (target : Nat)
    (h : tb.wf = true) :
    tb.offset_to_position target = offToPosFlat tb.get_all_text target := by
  rw [TextBuffer.offset_to_position, TextBuffer.get_all_text, offToPosFlat]
  exact offToPosPieces_eq_flat tb target _ 0 0 0 (wf_pieces_resolve tb h)

theorem otp_found_mono (target : Nat) (s : List Char) (l c off L C : Nat)
    (h : offToPosChars target s l c off = OtpStep.found ⟨L, C⟩) :
    (L = l ∧ c ≤ C) ∨ l < L := by
  induction s generalizing l c off with
  | nil => simp [offToPosChars] at h
  | cons ch rest ih =>
    rw [offToPosChars] at h
    by_cases h1 : off = target
    · rw [if_pos h1] at h
      obtain ⟨hL, hC⟩ : L = l ∧ C = c := by
        have := h
        simp [OtpStep.found.injEq, Position.mk.injEq] at this
        exact ⟨this.1.symm, this.2.symm⟩
      exact Or.inl ⟨hL, hC ▸ le_refl c⟩
    · rw [if_neg h1] at h
      by_cases h2 : ch = '\n'
      · rw [if_pos h2] at h
        rcases ih _ _ _ h with ⟨hL, _⟩ | hlt
        · exact Or.inr (by omega)
        · exact Or.inr (by omega)
      · rw [if_neg h2] at h
        rcases ih _ _ _ h with ⟨hL, hC⟩ | hlt
        · exact Or.inl ⟨hL, by omega⟩
        · exact Or.inr hlt

theorem otp_cont_mono (target : Nat) (s : List Char) (l c off L C off' : Nat)
    (h : offToPosChars target s l c off = OtpStep.cont L C off') :
    (L = l ∧ c ≤ C) ∨ l < L := by
  induction s generalizing l c off with
  | nil =>
    simp [offToPosChars] at h
    exact Or.inl ⟨h.1.symm, h.2.1 ▸ le_refl c⟩
  | cons ch rest ih =>
    rw [offToPosChars] at h
    by_cases h1 : off = target
    · rw [if_pos h1] at h
      simp at h
    · rw [if_neg h1] at h
      by_cases h2 : ch = '\n'
      · rw [if_pos h2] at h
        rcases ih _ _ _ h with ⟨hL, _⟩ | hlt
        · exact Or.inr (by omega)
        · exact Or.inr (by omega)
      · rw [if_neg h2] at h
        rcases ih _ _ _ h with ⟨hL, hC⟩ | hlt
        · exact Or.inl ⟨hL, by omega⟩
        · exact Or.inr hlt

theorem roundtrip_found (target : Nat) (s : List Char) (l c cc off L C : Nat)
    (h : offToPosChars target s l c off = OtpStep.found ⟨L, C⟩)
    (hinv : L = l → cc = c) :
    posToOffChars ⟨L, C⟩ s l cc off = PtoStep.ret (Except.ok target) := by
  induction s generalizing l c cc off with
  | nil => simp [offToPosChars] at h
  | cons ch rest ih =>
    rw [offToPosChars] at h
    by_cases h1 : off = target
    · rw [if_pos h1] at h
      obtain ⟨hL, hC⟩ : L = l ∧ C = c := by
        simp [OtpStep.found.injEq, Position.mk.injEq] at h
        exact ⟨h.1.symm, h.2.symm⟩
      rw [posToOffChars]
      simp only []
      rw [if_pos (show l = (Position.mk L C).line from hL.symm)]
      rw [if_pos (show cc = (Position.mk L C).column by
        rw [hinv hL]; exact hC.symm)]
      rw [h1]
    · rw [if_neg h1] at h
      by_cases h2 : ch = '\n'
      · rw [if_pos h2] at h
        have hlt : l < L := by
          rcases otp_found_mono target rest _ _ _ _ _ h with ⟨hL, _⟩ | hlt <;> omega
        rw [posToOffChars]
        rw [if_neg (show ¬ l = (Position.mk L C).line by simp; omega)]
        rw [if_pos h2]
        rw [if_neg (show ¬ l + 1 > (Position.mk L C).line by simp; omega)]
        exact ih _ _ _ _ h (fun _ => rfl)
      · rw [if_neg h2] at h
        by_cases hL : l = L
        · have hcc : cc = c := hinv hL.symm
          have hCgt : c < C := by
            rcases otp_found_mono target rest _ _ _ _ _ h with ⟨_, hC⟩ | hlt <;> omega
          rw [posToOffChars]
          rw [if_pos (show l = (Position.mk L C).line from by simp [hL])]
          rw [if_neg (show ¬ cc = (Position.mk L C).column by simp [hcc]; omega)]
          rw [if_neg h2]
          exact ih _ _ _ _ h (fun _ => by rw [hcc])
        · rw [posToOffChars]
          rw [if_neg (show ¬ l = (Position.mk L C).line by simpa using hL)]
          rw [if_neg h2]
          exact ih _ _ _ _ h (fun hEq => absurd hEq.symm hL)

theorem roundtrip_cont (target : Nat) (s : List Char) (l c cc off L C : Nat)
    (h : offToPosChars target s l c off = OtpStep.cont L C target)
    (hinv : L = l → cc = c) :
    posToOffChars ⟨L, C⟩ s l cc off = PtoStep.cont L C target := by
  induction s generalizing l c cc off with
  | nil =>
    simp [offToPosChars] at h
    obtain ⟨hL, hC, hoff⟩ := h
    rw [posToOffChars, (hinv hL.symm).trans hC, hoff, hL]
  | cons ch rest ih =>
    rw [offToPosChars] at h
    by_cases h1 : off = target
    · rw [if_pos h1] at h
      simp at h
    · rw [if_neg h1] at h
      by_cases h2 : ch = '\n'
      · rw [if_pos h2] at h
        have hlt : l < L := by
          rcases otp_cont_mono target rest _ _ _ _ _ _ h with ⟨hL, _⟩ | hlt <;> omega
        rw [posToOffChars]
        rw [if_neg (show ¬ l = (Position.mk L C).line by simp; omega)]
        rw [if_pos h2]
        rw [if_neg (show ¬ l + 1 > (Position.mk L C).line by simp; omega)]
        exact ih _ _ _ _ h (fun _ => rfl)
      · rw [if_neg h2] at h
        by_cases hL : l = L
        · have hcc : cc = c := hinv hL.symm
          have hCgt : c < C := by
            rcases otp_cont_mono target rest _ _ _ _ _ _ h with ⟨_, hC⟩ | hlt <;> omega
          rw [posToOffChars]
          rw [if_pos (show l = (Position.mk L C).line from by simp [hL])]
          rw [if_neg (show ¬ cc = (Position.mk L C).column by simp [hcc]; omega)]
          rw [if_neg h2]
          exact ih _ _ _ _ h (fun _ => by rw [hcc])
        · rw [posToOffChars]
          rw [if_neg (show ¬ l = (Position.mk L C).line by simpa using hL)]
          rw [if_neg h2]
          exact ih _ _ _ _ h (fun hEq => absurd hEq.symm hL)

theorem posToOffFlat_of_found (s : List Char) (o L C : Nat)
    (h : offToPosChars o s 0 0 0 = OtpStep.found ⟨L, C⟩) :
    posToOffFlat s ⟨L, C⟩ = Except.ok o := by
  rw [posToOffFlat, roundtrip_found o s 0 0 0 0 L C h (fun _ => rfl)]

theorem posToOffFlat_of_cont (s : List Char) (o L C : Nat)
    (h : offToPosChars o s 0 0 0 = OtpStep.cont L C o) :
    posToOffFlat s ⟨L, C⟩ = Except.ok o := by
  rw [posToOffFlat, roundtrip_cont o s 0 0 0 0 L C h (fun _ => rfl)]
  simp

theorem offToPosFlat_roundtrip (s : List Char) (o : Nat) (pos : Position)
    (h : offToPosFlat s o = Except.ok pos) :
    posToOffFlat s pos = Except.ok o := by
  obtain ⟨L, C⟩ := pos
  rw [offToPosFlat] at h
  cases hscan : offToPosChars o s 0 0 0 with
  | found p' =>
    rw [hscan] at h
    obtain ⟨hL, hC⟩ : p'.line = L ∧ p'.column = C := by
      cases h' : p'
      simp [h'] at h
      simp [h', h.1, h.2]
    exact posToOffFlat_of_found s o L C (by
      rw [hscan]
      cases h' : p'
      simp [h'] at hL hC
      simp [hL, hC])
  | cont l c off =>
    rw [hscan] at h
    have h2 : (if off = o then (Except.ok (⟨l, c⟩ : Position) : Except String Position)
        else Except.error "Offset out of bounds") = Except.ok ⟨L, C⟩ := h
    by_cases hoff : off = o
    · rw [if_pos hoff] at h2
      obtain ⟨hl, hc⟩ : l = L ∧ c = C := by
        simp [Position.mk.injEq] at h2
        exact h2
      exact posToOffFlat_of_cont s o L C (by rw [hscan, hl, hc, hoff])
    · rw [if_neg hoff] at h2
      exact absurd h2 (by simp)

theorem otp_found_mem (target : Nat) (s : List Char) (l c off : Nat) (p : Position)
    (h : offToPosChars target s l c off = OtpStep.found p) :
    target ∈ byteOffsets s off := by
  induction s generalizing l c off with
  | nil => simp [offToPosChars] at h
  | cons ch rest ih =>
    rw [offToPosChars] at h
    rw [byteOffsets]
    by_cases h1 : off = target
    · exact h1 ▸ List.mem_cons_self off _
    · rw [if_neg h1] at h
      by_cases h2 : ch = '\n'
      · rw [if_pos h2] at h
        exact List.mem_cons_of_mem off (ih _ _ _ h)
      · rw [if_neg h2] at h
        exact List.mem_cons_of_mem off (ih _ _ _ h)

theorem otp_cont_mem (target : Nat) (s : List Char) (l c off l' c' off' : Nat)
    (h : offToPosChars target s l c off = OtpStep.cont l' c' off') :
    off' ∈ byteOffsets s off := by
  induction s generalizing l c off with
  | nil =>
    simp [offToPosChars] at h
    simp [byteOffsets, h.2.2]
  | cons ch rest ih =>
    rw [offToPosChars] at h
    rw [byteOffsets]
    by_cases h1 : off = target
    · rw [if_pos h1] at h
      simp at h
    · rw [if_neg h1] at h
      by_cases h2 : ch = '\n'
      · rw [if_pos h2] at h
        exact List.mem_cons_of_mem off (ih _ _ _ h)
      · rw [if_neg h2] at h
        exact List.mem_cons_of_mem off (ih _ _ _ h)

theorem offToPosFlat_boundary (s : List Char) (o : Nat)
    (h : o ∉ byteOffsets s 0) :
    offToPosFlat s o = Except.error "Offset out of bounds" := by
  rw [offToPosFlat]
  cases hscan : offToPosChars o s 0 0 0 with
  | found p => exact absurd (otp_found_mem o s 0 0 0 p hscan) h
  | cont l c off =>
    have hoff : off ≠ o := by
      intro he
      exact h (he ▸ otp_cont_mem o s 0 0 0 l c off hscan)
    simp [hoff]

theorem posToOffFlat_eq_from (s : List Char) (pos : Position) :
    posToOffFlat s pos = posToOffFlatFrom s pos 0 0 0 := rfl

theorem ptoc_step_target (pos : Position) (ch : Char) (rest : List Char)
    (l c off : Nat) (hl : l = pos.line) (hc : ¬ c = pos.column) :
    posToOffChars pos (ch :: rest) l c off =
      if ch = '\n' then PtoStep.ret (Except.ok off)
      else posToOffChars pos rest l (c + 1) (off + ch.utf8Size) := by
  rw [posToOffChars, if_pos hl, if_neg hc]

theorem ptoc_step_other (pos : Position) (ch : Char) (rest : List Char)
    (l c off : Nat) (hl : ¬ l = pos.line) :
    posToOffChars pos (ch :: rest) l c off =
      if ch = '\n' then
        (if l + 1 > pos.line then PtoStep.ret (Except.error "Position out of bounds")
         else posToOffChars pos rest (l + 1) 0 (off + ch.utf8Size))
      else posToOffChars pos rest l c (off + ch.utf8Size) := by
  rw [posToOffChars, if_neg hl]

theorem clamp_at_line (s : List Char) (l c off col : Nat)
    (hcol : c + (lineChars s 0).length < col) :
    posToOffFlatFrom s ⟨l, col⟩ l c off =
      match lineEndOff s 0 with
      | some d => Except.ok (off + d)
      | none => Except.error "Position out of bounds" := by
  induction s generalizing c off with
  | nil =>
    simp only [posToOffFlatFrom, posToOffChars, lineEndOff]
    rw [if_neg (by simp; intro; omega)]
  | cons ch rest ih =>
    have hclt : c < col := by
      by_cases hch : ch = '\n' <;> simp [lineChars, hch] at hcol <;> omega
    simp only [posToOffFlatFrom]
    rw [ptoc_step_target ⟨l, col⟩ ch rest l c off rfl (by simp; omega)]
    by_cases hch : ch = '\n'
    · rw [if_pos hch, lineEndOff, if_pos hch]
      simp
    · rw [if_neg hch, lineEndOff, if_neg hch]
      have hcol2 : (c + 1) + (lineChars rest 0).length < col := by
        simp [lineChars, hch] at hcol
        omega
      have hrec := ih (c + 1) (off + ch.utf8Size) hcol2
      simp only [posToOffFlatFrom] at hrec
      rw [hrec]
      cases lineEndOff rest 0 with
      | none => rfl
      | some d =>
        simp [Nat.add_assoc]

theorem clamp_before_line (s : List Char) (r l c off col : Nat)
    (hcol : (lineChars s (r + 1)).length < col) :
    posToOffFlatFrom s ⟨l + (r + 1), col⟩ l c off =
      match lineEndOff s (r + 1) with
      | some d => Except.ok (off + d)
      | none => Except.error "Position out of bounds" := by
  induction s generalizing r l c off with
  | nil =>
    simp only [posToOffFlatFrom, posToOffChars, lineEndOff]
    rw [if_neg (by simp <;> omega)]
  | cons ch rest ih =>
    simp only [posToOffFlatFrom]
    rw [ptoc_step_other ⟨l + (r + 1), col⟩ ch rest l c off (by simp <;> omega)]
    by_cases hch : ch = '\n'
    · rw [if_pos hch]
      rw [if_neg (show ¬ l + 1 > (Position.mk (l + (r + 1)) col).line by
        simp <;> omega)]
      rw [lineEndOff, if_pos hch]
      cases r with
      | zero =>
        have hcol2 : 0 + (lineChars rest 0).length < col := by
          simpa [lineChars, hch] using hcol
        have hrec := clamp_at_line rest (l + 1) 0 (off + ch.utf8Size) col hcol2
        simp only [posToOffFlatFrom] at hrec
        rw [show l + (0 + 1) = l + 1 by omega] at *
        rw [hrec]
        cases lineEndOff rest 0 with
        | none => rfl
        | some d => simp [Nat.add_assoc]
      | succ r' =>
        have hcol2 : (lineChars rest (r' + 1)).length < col := by
          simpa [lineChars, hch] using hcol
        have hrec := ih r' (l + 1) 0 (off + ch.utf8Size) hcol2
        simp only [posToOffFlatFrom] at hrec
        rw [show l + (r' + 1 + 1) = l + 1 + (r' + 1) by omega]
        rw [hrec]
        cases lineEndOff rest (r' + 1) with
        | none => rfl
        | some d => simp [Nat.add_assoc]
    · rw [if_neg hch]
      rw [lineEndOff, if_neg hch]
      have hcol2 : (lineChars rest (r + 1)).length < col := by
        simpa [lineChars, hch] using hcol
      have hrec := ih r l c (off + ch.utf8Size) hcol2
      simp only [posToOffFlatFrom] at hrec
      rw [hrec]
      cases lineEndOff rest (r + 1) with
      | none => rfl
      | some d => simp [Nat.add_assoc]

theorem clamp_flat (s : List Char) (L col : Nat)
    (hcol : (lineChars s L).length < col) :
    posToOffFlat s ⟨L, col⟩ =
      match lineEndOff s L with
      | some d => Except.ok d
      | none => Except.error "Position out of bounds" := by
  rw [posToOffFlat_eq_from]
  cases L with
  | zero =>
    have := clamp_at_line s 0 0 0 col (by omega)
    rw [this]
    cases lineEndOff s 0 with
    | none => rfl
    | some d => simp
  | succ r =>
    have := clamp_before_line s r 0 0 0 col hcol
    rw [show (0 : Nat) + (r + 1) = r + 1 by omega] at this
    rw [this]
    cases lineEndOff s (r + 1) with
    | none => rfl
    | some d => simp

theorem sum_line_breaks_collect (n : RBNode) :
    (n.collect_pieces.map (fun p => p.line_break_count)).sum = n.sum_line_breaks := by
  induction n with
  | leaf => rfl
  | node p c ll lb l r ihl ihr =>
    rw [RBNode.collect_pieces, RBNode.sum_line_breaks]
    simp [← ihl, ← ihr]
    omega

theorem wf_pieces_count (tb : TextBuffer) (h : tb.wf = true) :
    ∀ p ∈ tb.tree.collect_pieces, ∃ content,
      tb.get_piece_content p = some content ∧
        count_line_breaks content = p.line_break_count := by
  intro p hp
  rw [TextBuffer.wf, Bool.and_eq_true] at h
  have := (List.all_eq_true.mp h.2) p hp
  cases hc : tb.get_piece_content p with
  | none => rw [hc] at this; exact absurd this (by simp)
  | some content =>
    rw [hc] at this
    have h2 : (count_line_breaks content == p.line_break_count) = true := this
    exact ⟨content, rfl, by simpa using h2⟩

theorem count_piecesText (tb : TextBuffer) (ps : List Piece)
    (h : ∀ p ∈ ps, ∃ content, tb.get_piece_content p = some content ∧
      count_line_breaks content = p.line_break_count) :
    count_line_breaks (piecesText tb ps) =
      (ps.map (fun p => p.line_break_count)).sum := by
  induction ps with
  | nil => rfl
  | cons p ps ih =>
    obtain ⟨content, hc, hcount⟩ := h p (by simp)
    rw [piecesText, hc, count_line_breaks_append, Option.getD_some, hcount]
    simp [ih (fun q hq => h q (by simp [hq]))]

theorem chunksNE_cons_empty (cs : List (List Char)) :
    chunksNE ([] :: cs) = chunksNE cs := by
  simp [chunksNE]

theorem chunksNE_cons_ne (c : List Char) (cs : List (List Char)) (h : c ≠ []) :
    chunksNE (c :: cs) = c :: chunksNE cs := by
  simp [chunksNE, List.filter_cons, h]

theorem flatten_chunksNE (cs : List (List Char)) :
    (chunksNE cs).flatten = cs.flatten := by
  induction cs with
  | nil => rfl
  | cons c cs ih =>
    by_cases hc : c = []
    · rw [hc, chunksNE_cons_empty]
      simp [ih]
    · rw [chunksNE_cons_ne c cs hc]
      simp [ih]

theorem expectedPieces_append (fs : List (List Char)) (c : List Char) (off : Nat) :
    expectedPieces off (fs ++ [c]) =
      expectedPieces off fs ++
        [Piece.original 0 (off + utf8Len fs.flatten) (utf8Len c)
          (count_line_breaks c)] := by
  induction fs generalizing off with
  | nil => simp [expectedPieces, utf8Len]
  | cons f fs ih =>
    rw [List.cons_append, expectedPieces, expectedPieces, ih]
    simp [utf8Len_append, Nat.add_assoc]

theorem accept_chunk_empty (b : TextBufferBuilder) :
    b.accept_chunk [] = b := by
  rw [TextBufferBuilder.accept_chunk, if_pos rfl]

theorem accept_chunk_first (b : TextBufferBuilder) (c : List Char) (hc : c ≠ [])
    (hb : b.original_buffers = []) :
    b.accept_chunk c =
      { original_buffers := [Buffer.from_text c],
        added_buffers := b.added_buffers,
        pieces := b.pieces ++
          [Piece.original 0 0 (utf8Len c) (count_line_breaks c)] } := by
  rw [TextBufferBuilder.accept_chunk, if_neg hc, hb]
  rfl

theorem accept_chunk_next (b : TextBufferBuilder) (c : List Char)
    (content : List Char) (ls : List Nat) (hc : c ≠ [])
    (hb : b.original_buffers = [⟨content, ls⟩]) :
    b.accept_chunk c =
      { original_buffers := [Buffer.append ⟨content, ls⟩ c],
        added_buffers := b.added_buffers,
        pieces := b.pieces ++
          [Piece.original 0 (utf8Len content) (utf8Len c)
            (count_line_breaks c)] } := by
  rw [TextBufferBuilder.accept_chunk, if_neg hc, hb]
  rfl

theorem feed_canonical (cs : List (List Char)) (b : TextBufferBuilder)
    (fs : List (List Char)) (ls : List Nat)
    (hp : b.pieces = expectedPieces 0 fs)
    (hb : (fs = [] ∧ b.original_buffers = []) ∨
      (fs ≠ [] ∧ b.original_buffers = [⟨fs.flatten, ls⟩])) :
    ∃ ls', (cs.foldl (fun b c => b.accept_chunk c) b).pieces =
        expectedPieces 0 (fs ++ chunksNE cs) ∧
      ((fs ++ chunksNE cs = [] ∧
          (cs.foldl (fun b c => b.accept_chunk c) b).original_buffers = []) ∨
        (fs ++ chunksNE cs ≠ [] ∧
          (cs.foldl (fun b c => b.accept_chunk c) b).original_buffers =
            [⟨(fs ++ chunksNE cs).flatten, ls'⟩])) := by
  induction cs generalizing b fs ls with
  | nil =>
    refine ⟨ls, ?_, ?_⟩
    · simpa [chunksNE] using hp
    · simpa [chunksNE] using hb
  | cons c cs ih =>
    rw [List.foldl_cons]
    by_cases hc : c = []
    · rw [hc, accept_chunk_empty, chunksNE_cons_empty]
      exact ih b fs ls hp hb
    · rw [chunksNE_cons_ne c cs hc]
      rcases hb with ⟨hfs, hob⟩ | ⟨hfs, hob⟩
      · have hp' : (b.accept_chunk c).pieces = expectedPieces 0 [c] := by
          rw [accept_chunk_first b c hc hob]
          simp [hp, hfs, expectedPieces]
        have hb' : ([c] = [] ∧ (b.accept_chunk c).original_buffers = []) ∨
            ([c] ≠ [] ∧ (b.accept_chunk c).original_buffers =
              [⟨([c] : List (List Char)).flatten, 0 :: lineStartsAux c 0⟩]) := by
          refine Or.inr ⟨by simp, ?_⟩
          rw [accept_chunk_first b c hc hob]
          simp [Buffer.from_text]
        obtain ⟨ls', h1, h2⟩ := ih (b.accept_chunk c) [c] _ hp' hb'
        refine ⟨ls', ?_, ?_⟩
        · rw [hfs]
          simpa using h1
        · rw [hfs]
          simpa using h2
      · have hp' : (b.accept_chunk c).pieces = expectedPieces 0 (fs ++ [c]) := by
          rw [accept_chunk_next b c fs.flatten ls hc hob, expectedPieces_append]
          simp [hp]
        have hb' : (fs ++ [c] = [] ∧ (b.accept_chunk c).original_buffers = []) ∨
            (fs ++ [c] ≠ [] ∧ (b.accept_chunk c).original_buffers =
              [⟨(fs ++ [c]).flatten, ls ++ lineStartsAux c (utf8Len fs.flatten)⟩]) := by
          refine Or.inr ⟨by simp, ?_⟩
          rw [accept_chunk_next b c fs.flatten ls hc hob]
          simp [Buffer.append]
        obtain ⟨ls', h1, h2⟩ := ih (b.accept_chunk c) (fs ++ [c]) _ hp' hb'
        refine ⟨ls', ?_, ?_⟩
        · simpa [List.append_assoc] using h1
        · simpa [List.append_assoc] using h2

theorem piecesText_expected (added : List Buffer) (tr : RBTree) (ls : List Nat)
    (fs : List (List Char)) (pre : List Char) :
    piecesText ⟨[⟨pre ++ fs.flatten, ls⟩], added, tr⟩
      (expectedPieces (utf8Len pre) fs) = fs.flatten := by
  induction fs generalizing pre with
  | nil => rfl
  | cons c fs ih =>
    rw [expectedPieces, piecesText]
    have hcontent : TextBuffer.get_piece_content
        ⟨[⟨pre ++ (c :: fs).flatten, ls⟩], added, tr⟩
        (Piece.original 0 (utf8Len pre) (utf8Len c) (count_line_breaks c)) =
        some c := by
      rw [TextBuffer.get_piece_content, utils_get_piece_content]
      simp only [Piece.original]
      rw [List.get?_eq_getElem?]
      simp only [List.getElem?_cons_zero]
      rw [if_pos (by
        rw [Buffer.len]
        simp [utf8Len_append] <;> omega)]
      rw [show pre ++ (c :: fs).flatten = pre ++ c ++ fs.flatten by simp]
      exact byteSlice_middle pre c fs.flatten
    rw [hcontent]
    simp only [Option.getD_some]
    have h2 := ih (pre ++ c)
    rw [utf8Len_append] at h2
    rw [show (pre ++ c) ++ fs.flatten = pre ++ (c :: fs).flatten by simp] at h2
    rw [h2]
    simp

theorem is_empty_collect (t : RBTree) (h : t.is_empty = true) :
    t.collect_pieces = [] := by
  rw [RBTree.is_empty] at h
  rw [RBTree.collect_pieces]
  cases hr : t.root with
  | leaf => rfl
  | node p c ll lb l r => rw [hr] at h; simp at h

theorem build_get_all_text (b : TextBufferBuilder) (fs : List (List Char))
    (ls : List Nat) (hp : b.pieces = expectedPieces 0 fs)
    (hb : (fs = [] ∧ b.original_buffers = []) ∨
      (fs ≠ [] ∧ b.original_buffers = [⟨fs.flatten, ls⟩])) :
    b.build.get_all_text = fs.flatten := by
  rcases hb with ⟨hfs, hob⟩ | ⟨hfs, hob⟩
  · rw [TextBufferBuilder.build, TextBuffer.get_all_text]
    rw [hp, hfs]
    rw [show expectedPieces 0 [] = [] from rfl]
    rw [if_pos (by rfl), if_pos hob]
    rfl
  · rw [TextBufferBuilder.build, TextBuffer.get_all_text]
    rw [hp]
    have hne : expectedPieces 0 fs ≠ [] := by
      cases fs with
      | nil => exact absurd rfl hfs
      | cons c cs => simp [expectedPieces]
    have hcollect : ((expectedPieces 0 fs).foldl (fun t p => t.insert p)
        RBTree.new).collect_pieces = expectedPieces 0 fs := by
      rw [collect_insert_foldl]
      rfl
    have hnonempty : ((expectedPieces 0 fs).foldl (fun t p => t.insert p)
        RBTree.new).is_empty = false := by
      cases hemp : ((expectedPieces 0 fs).foldl (fun t p => t.insert p)
          RBTree.new).is_empty
      · rfl
      · exact absurd (hcollect.symm.trans (is_empty_collect _ hemp)) hne
    rw [if_neg (by rw [hnonempty]; simp)]
    simp only [hob, hcollect]
    have := piecesText_expected b.added_buffers
      ((expectedPieces 0 fs).foldl (fun t p => t.insert p) RBTree.new) ls fs []
    rw [show utf8Len [] = 0 from rfl] at this
    simpa using this

/-- C1: the claim says a successful `insert(P, T)` yields `prefix + T + suffix`
around the offset resolved from `P`.  The code instead always appends the new
piece at the tree end (its own comment calls this a simplification), so
inserting `"X"` at position `(0,0)` of `"ab"` yields `"abX"`, not `"Xab"`:
this theorem evaluates the code at that failing input. -/
theorem c1_insert_stub_eval :
    ((TextBuffer.from_text ['a', 'b']).insert ⟨0, 0⟩ ['X']).1 = Except.ok () ∧
    ((TextBuffer.from_text ['a', 'b']).insert ⟨0, 0⟩ ['X']).2.get_all_text =
      ['a', 'b', 'X'] ∧
    (['a', 'b', 'X'] : List Char) ≠ ['X', 'a', 'b'] :=
  ⟨rfl, rfl, by decide⟩

/-- C2: the claim says `delete(R)` returns the covered text and removes it
from the document.  The return value is correct, but the code never modifies
the tree (its own comment says so), so the document is unchanged: deleting
`[(0,0),(0,1))` from `"ab"` returns `"a"` yet the text stays `"ab"`, not
`"b"`.  This theorem evaluates the code at that failing input. -/
theorem c2_delete_stub_eval :
    ((TextBuffer.from_text ['a', 'b']).delete ⟨⟨0, 0⟩, ⟨0, 1⟩⟩).1 =
      Except.ok ['a'] ∧
    ((TextBuffer.from_text ['a', 'b']).delete ⟨⟨0, 0⟩, ⟨0, 1⟩⟩).2.get_all_text =
      ['a', 'b'] ∧
    (['a', 'b'] : List Char) ≠ ['b'] :=
  ⟨rfl, rfl, by decide⟩

/-- C3: for every chunk sequence fed through `accept_chunk` and `build`,
`get_all_text` is the concatenation of the chunks in order (empty chunks
contribute nothing since they are flattened away), and the buffer built from
no chunks has one line whose content is empty. -/
theorem c3_builder_roundtrip :
    (∀ cs : List (List Char),
      (feedChunks cs).build.get_all_text = cs.flatten) ∧
    (feedChunks []).build.line_count = 1 ∧
    (feedChunks []).build.get_line_content 0 = Except.ok [] := by
  refine ⟨?_, rfl, rfl⟩
  intro cs
  obtain ⟨ls', h1, h2⟩ := feed_canonical cs TextBufferBuilder.new [] []
    rfl (Or.inl ⟨rfl, rfl⟩)
  rw [← flatten_chunksNE cs]
  exact build_get_all_text (feedChunks cs) (chunksNE cs) ls'
    (by simpa using h1) (by simpa using h2)

/-- C4: on a well-formed buffer, whenever `offset_to_position o` succeeds with
position `pos`, `position_to_offset pos` succeeds and returns `o`. -/
theorem c4_position_offset_inverse (tb : TextBuffer) (o : Nat) (pos : Position)
    (hwf : tb.wf = true) (h : tb.offset_to_position o = Except.ok pos) :
    tb.position_to_offset pos = Except.ok o := by
  rw [position_to_offset_eq_flat tb pos hwf]
  rw [offset_to_position_eq_flat tb o hwf] at h
  exact offToPosFlat_roundtrip _ o pos h

/-- Witness for C4 on the document `"a\nb"` at offset 2. -/
theorem c4_position_offset_inverse_witness :
    (TextBuffer.from_text ['a', '\n', 'b']).position_to_offset ⟨1, 0⟩ =
      Except.ok 2 :=
  c4_position_offset_inverse (TextBuffer.from_text ['a', '\n', 'b']) 2 ⟨1, 0⟩
    rfl rfl

/-- C5: on a well-formed buffer (the metadata invariant plus accurate piece
line-break counts), `line_count` equals the number of line feeds in
`get_all_text` plus one, hence is at least one. -/
theorem c5_line_count_law (tb : TextBuffer) (h : tb.wf = true) :
    tb.line_count = count_line_breaks tb.get_all_text + 1 ∧
      1 ≤ tb.line_count := by
  have hmain : tb.line_count = count_line_breaks tb.get_all_text + 1 := by
    rw [TextBuffer.line_count]
    by_cases hemp : tb.tree.is_empty = true
    · rw [if_pos hemp, TextBuffer.get_all_text, is_empty_collect _ hemp]
      rfl
    · rw [if_neg hemp]
      have hwfm : tb.tree.root.wf_metadata = true := by
        rw [TextBuffer.wf, Bool.and_eq_true] at h
        exact h.1
      rw [TextBuffer.get_all_text,
        count_piecesText tb tb.tree.collect_pieces (wf_pieces_count tb h),
        RBTree.total_line_breaks, total_line_breaks_eq_sum _ hwfm,
        RBTree.collect_pieces, sum_line_breaks_collect]
  exact ⟨hmain, by omega⟩

/-- Witness for C5 on the buffer built from no chunks. -/
theorem c5_line_count_law_witness :
    TextBufferBuilder.new.build.line_count =
        count_line_breaks TextBufferBuilder.new.build.get_all_text + 1 ∧
      1 ≤ TextBufferBuilder.new.build.line_count :=
  c5_line_count_law TextBufferBuilder.new.build rfl

/-- C6 counterexample: on the document `"a\nb"`, line 0 has one character,
yet `position_to_offset (0, 5)` does not fail: it clamps to the end of the
line and returns offset 1, refuting the claim that an oversized column on a
valid line yields a `PositionOutOfBounds` error. -/
theorem c6_counterexample :
    (TextBuffer.from_text ['a', '\n', 'b']).line_count = 2 ∧
    lineChars (TextBuffer.from_text ['a', '\n', 'b']).get_all_text 0 = ['a'] ∧
    (TextBuffer.from_text ['a', '\n', 'b']).position_to_offset ⟨0, 5⟩ =
      Except.ok 1 :=
  ⟨rfl, rfl, rfl⟩

/-- C6 amended: on a well-formed buffer, a position whose column exceeds the
character count of its line resolves to the byte offset of the line feed
terminating that line when one exists (clamping, hence `insert` at such a
position also succeeds there), and fails with `PositionOutOfBounds` only
when the line is not terminated by a line feed (the last line) or lies
beyond the document. -/
theorem c6_amended_clamp (tb : TextBuffer) (L col : Nat) (hwf : tb.wf = true)
    (hcol : (lineChars tb.get_all_text L).length < col) :
    (tb.position_to_offset ⟨L, col⟩ =
      match lineEndOff tb.get_all_text L with
      | some d => Except.ok d
      | none => Except.error "Position out of bounds") ∧
    (∀ text : List Char, tb.added_buffers ≠ [] → ∀ d,
      lineEndOff tb.get_all_text L = some d →
        (tb.insert ⟨L, col⟩ text).1 = Except.ok ()) := by
  have hpto : tb.position_to_offset ⟨L, col⟩ =
      match lineEndOff tb.get_all_text L with
      | some d => Except.ok d
      | none => Except.error "Position out of bounds" := by
    rw [position_to_offset_eq_flat tb _ hwf]
    exact clamp_flat _ L col hcol
  refine ⟨hpto, ?_⟩
  intro text hadd d hd
  rw [TextBuffer.insert]
  by_cases htext : text = []
  · rw [if_pos htext]
  · rw [if_neg htext]
    rw [hpto, hd]
    simp only []
    obtain ⟨last, hlast⟩ :=
      Option.isSome_iff_exists.mp (List.getLast?_isSome.mpr hadd)
    rw [hlast]

/-- Witness for the amended C6 on the document `"a\nb"`, column 5 of line 0:
`position_to_offset` clamps to offset 1 and `insert` there succeeds. -/
theorem c6_amended_clamp_witness :
    (TextBuffer.from_text ['a', '\n', 'b']).position_to_offset ⟨0, 5⟩ =
        Except.ok 1 ∧
    ((TextBuffer.from_text ['a', '\n', 'b']).insert ⟨0, 5⟩ ['X']).1 =
      Except.ok () := by
  have h := c6_amended_clamp (TextBuffer.from_text ['a', '\n', 'b']) 0 5 rfl
    (by decide)
  exact ⟨h.1.trans rfl, h.2 ['X'] (by decide) 1 rfl⟩

/-- C7: when both range endpoints resolve to offsets with `end ≤ start`,
`get_text_in_range` and `delete` both fail with the invalid-range error, and
`delete` leaves the buffer unchanged. -/
theorem c7_invalid_range (tb : TextBuffer) (range : Range) (s e : Nat)
    (hs : tb.position_to_offset range.start = Except.ok s)
    (he : tb.position_to_offset range.stop = Except.ok e)
    (hle : e ≤ s) :
    tb.get_text_in_range range = Except.error "Invalid range" ∧
    (tb.delete range).1 = Except.error "Invalid range" ∧
    (tb.delete range).2 = tb := by
  have hgtir : tb.get_text_in_range range = Except.error "Invalid range" := by
    rw [TextBuffer.get_text_in_range, hs, he]
    simp only []
    rw [if_pos (by omega)]
  have hdel : tb.delete range = (Except.error "Invalid range", tb) := by
    rw [TextBuffer.delete, hs, he]
    simp only []
    rw [if_pos (by omega)]
  exact ⟨hgtir, by rw [hdel], by rw [hdel]⟩

/-- Witness for C7: the zero-length range `[(0,1),(0,1))` on `"ab"`. -/
theorem c7_invalid_range_witness :
    (TextBuffer.from_text ['a', 'b']).get_text_in_range ⟨⟨0, 1⟩, ⟨0, 1⟩⟩ =
        Except.error "Invalid range" ∧
    ((TextBuffer.from_text ['a', 'b']).delete ⟨⟨0, 1⟩, ⟨0, 1⟩⟩).1 =
        Except.error "Invalid range" ∧
    ((TextBuffer.from_text ['a', 'b']).delete ⟨⟨0, 1⟩, ⟨0, 1⟩⟩).2 =
      TextBuffer.from_text ['a', 'b'] :=
  c7_invalid_range (TextBuffer.from_text ['a', 'b']) ⟨⟨0, 1⟩, ⟨0, 1⟩⟩ 1 1
    rfl rfl (by decide)

/-- C8: every tree built by a sequence of `insert` operations from the empty
tree satisfies the augmentation invariant: at every node the cached
left-subtree byte length and line-break count equal the sums of the piece
lengths and line-break counts over its left subtree (the rotations performed
during rebalancing preserve this, which is what the inductive proof
establishes). -/
theorem c8_metadata_invariant (ps : List Piece) :
    ((ps.foldl (fun t p => t.insert p) RBTree.new).root).wf_metadata = true :=
  wf_insert_foldl ps RBTree.new rfl

/-- C9 counterexample: `split_at` with `left_line_breaks = 1` on a piece with
`line_break_count = 0` underflows the `usize` subtraction, so the two
line-break counts do not sum to the original count, refuting the claim for
an arbitrary supplied `left_line_breaks`. -/
theorem c9_counterexample :
    Piece.split_at ⟨PieceType.original, 0, 0, 0, 0⟩ 0 1 =
      some (⟨PieceType.original, 0, 0, 0, 1⟩,
            ⟨PieceType.original, 0, 0, 0, 18446744073709551615⟩) ∧
    1 + 18446744073709551615 ≠ (0 : Nat) :=
  ⟨rfl, by decide⟩

/-- C9 amended: under the additional hypothesis
`left_line_breaks ≤ p.line_break_count` (and the `usize` range bound),
`split_at` at an offset within `[0, p.length]` returns the two pieces over
the same store, covering `[0, offset)` and `[offset, p.length)` with
line-break counts `left_line_breaks` and
`p.line_break_count - left_line_breaks`, whose lengths and counts sum to the
originals. -/
theorem c9_split_at_amended (p : Piece) (offset lb : Nat)
    (hoff : offset ≤ p.length) (hlb : lb ≤ p.line_break_count)
    (hrange : p.line_break_count < usizeMod) :
    p.split_at offset lb =
      some (⟨p.piece_type, p.buffer_index, p.start, offset, lb⟩,
            ⟨p.piece_type, p.buffer_index, p.start + offset, p.length - offset,
             p.line_break_count - lb⟩) ∧
    offset + (p.length - offset) = p.length ∧
    lb + (p.line_break_count - lb) = p.line_break_count := by
  refine ⟨?_, by omega, by omega⟩
  rw [Piece.split_at, if_pos hoff]
  have hmod : (p.line_break_count + usizeMod - lb) % usizeMod =
      p.line_break_count - lb := by
    rw [usizeMod] at *
    omega
  rw [hmod]

/-- Witness for the amended C9 on the piece of the source's own test. -/
theorem c9_split_at_amended_witness :
    Piece.split_at ⟨PieceType.original, 0, 10, 20, 3⟩ 8 1 =
      some (⟨PieceType.original, 0, 10, 8, 1⟩,
            ⟨PieceType.original, 0, 18, 12, 2⟩) ∧
    8 + (20 - 8) = 20 ∧ 1 + (3 - 1) = 3 :=
  c9_split_at_amended ⟨PieceType.original, 0, 10, 20, 3⟩ 8 1
    (by decide) (by decide) (by decide)

/-- C10: on a well-formed buffer, a byte offset below the document length
that is not a character boundary of the document text (it falls strictly
inside a multi-byte UTF-8 character) makes `offset_to_position` fail. -/
theorem c10_interior_offset_error (tb : TextBuffer) (o : Nat)
    (hwf : tb.wf = true) (hlt : o < tb.length)
    (hb : o ∉ byteOffsets tb.get_all_text 0) :
    tb.offset_to_position o = Except.error "Offset out of bounds" := by
  rw [offset_to_position_eq_flat tb o hwf]
  exact offToPosFlat_boundary _ o hb

/-- Witness for C10: offset 1 falls inside the two-byte character of `"é"`. -/
theorem c10_interior_offset_error_witness :
    (TextBuffer.from_text ['é']).offset_to_position 1 =
      Except.error "Offset out of bounds" :=
  c10_interior_offset_error (TextBuffer.from_text ['é']) 1 rfl
    (by decide) (by decide)
